import Mathlib

/-!
Verification of the rcat directory walker (src/main.rs) against its
specification.  The filesystem is modelled as a tree of nodes, directory
enumeration order as the order of the entry list, terminal output as a list
of abstract output events, and the fallible Rust functions as functions
returning the output produced so far together with an `Except` result.
-/

namespace Rcat

/-- Command-line arguments of the program (struct Args in main.rs). -/
structure Args where
  path : String
  no_color : Bool
  ext : Option String
  depth : Option Nat
  list : Bool
  verbose : Nat
  json : Bool

/-- The fixed exclusion set built by get_to_exclude in main.rs. -/
def get_to_exclude : List String :=
  ["target", ".idea", ".vscode", ".git", "Cargo.lock", ".gitignore", ".github"]

/-- The FileProcessor struct: the immutable run configuration. -/
structure FileProcessor where
  no_color : Bool
  depth : Option Nat
  file_ext : Option String
  list : Bool
  json : Bool
  excluded_files : List String

/-- FileProcessor::new: copies the flags and installs the fixed exclusion set. -/
def FileProcessor.new (a : Args) : FileProcessor :=
  ⟨a.no_color, a.depth, a.ext, a.list, a.json, get_to_exclude⟩

mutual
/-- A filesystem node: a file (readability flag plus its text lines) or a
directory (a flag saying whether enumeration succeeds, plus its entries). -/
inductive FSNode where
  | file (readable : Bool) (contents : List String)
  | dir (readable : Bool) (entries : FSList)

/-- The entries of a directory in enumeration order: base name and node. -/
inductive FSList where
  | nil
  | cons (name : String) (child : FSNode) (rest : FSList)
end

mutual
/-- The JSON value built by generate_json: the files array plus one entry per
subdirectory name. -/
inductive JNode where
  | mk (files : List String) (dirs : JDirs)

/-- The subdirectory entries of a JSON node. -/
inductive JDirs where
  | nil
  | cons (name : String) (node : JNode) (rest : JDirs)
end

/-- The files array of a JSON node. -/
def JNode.files : JNode → List String
  | .mk fs _ => fs

/-- The subdirectory entries of a JSON node. -/
def JNode.dirs : JNode → JDirs
  | .mk _ ds => ds

/-- The errors of the program: the FileProcessorError variants plus the
per-file open and read failures that are wrapped as anyhow contexts. -/
inductive PErr where
  | pathNotFound (p : List String)
  | directoryRead (p : List String)
  | fileOpen (p : List String)
  | highlightErr (p : List String)
deriving DecidableEq

/-- One unit of terminal output. -/
inductive OutEvent where
  | header (p : List String)
  | line (s : String)
  | eof
  | announce (p : List String)
  | jsonOut (j : JNode)

/-- The result of a fallible printing operation: the output events it
produced, together with success or the error that aborted it. -/
abbrev PResult := List OutEvent × Except PErr Unit

/-- Sequencing of two printing operations: output accumulates, and an error
in the first skips the second (the Rust question-mark operator). -/
def pseq (a : PResult) (k : Unit → PResult) : PResult :=
  match a with
  | (out, Except.ok _) => (out ++ (k ()).1, (k ()).2)
  | (out, Except.error e) => (out, Except.error e)

/-- FileProcessor::should_skip: looks only at the base name of the path and
tests membership in the exclusion set. -/
def FileProcessor.should_skip (self : FileProcessor) (path : List String) : Bool :=
  match path.getLast? with
  | some nm => self.excluded_files.contains nm
  | none => false

/-- Rust Path::extension on a base name: none when the name has no dot or when
its only dot is the leading one; otherwise the part after the final dot. -/
def pathExtension (name : String) : Option String :=
  match name.toList.splitOn '.' with
  | [] => none
  | [_] => none
  | [[], _] => none
  | parts => (parts.getLast?).map fun cs => String.mk cs

/-- The extension string the walker compares: Path::extension defaulted to the
empty string, as in process_directory. -/
def extD (name : String) : String := (pathExtension name).getD ""

/-- The highlighting loop of print_file_contents: each line goes through the
highlight oracle hl; a failing line aborts with SyntaxHighlighting for this
file, lines already highlighted having been printed. -/
def hlRender (hl : String → Option String) (p : List String) : List String → PResult
  | [] => ([], Except.ok ())
  | l :: ls =>
    match hl l with
    | none => ([], Except.error (PErr.highlightErr p))
    | some s =>
      match hlRender hl p ls with
      | (out, r) => (OutEvent.line s :: out, r)

/-- FileProcessor::print_file_contents: prints the banner, then opens the
file (failure aborts this file), then prints the lines either verbatim
(no_color) or through the highlight oracle. -/
def print_file_contents (cfg : FileProcessor) (hl : String → Option String)
    (p : List String) (readable : Bool) (cts : List String) : PResult :=
  if !readable then ([OutEvent.header p], Except.error (PErr.fileOpen p))
  else if cfg.no_color then
    ([OutEvent.header p] ++ cts.map OutEvent.line ++ [OutEvent.eof], Except.ok ())
  else
    match hlRender hl p cts with
    | (out, Except.ok _) => ([OutEvent.header p] ++ out ++ [OutEvent.eof], Except.ok ())
    | (out, Except.error e) => ([OutEvent.header p] ++ out, Except.error e)

/-- FileProcessor::proces_file: in list mode, announce the path and never
touch the contents; otherwise print the contents. -/
def proces_file (cfg : FileProcessor) (hl : String → Option String)
    (p : List String) (node : FSNode) : PResult :=
  if cfg.list then ([OutEvent.announce p], Except.ok ())
  else
    match node with
    | .file rd cts => print_file_contents cfg hl p rd cts
    | .dir _ _ => ([OutEvent.header p], Except.error (PErr.fileOpen p))

mutual
/-- FileProcessor::process_directory: does nothing on a non-directory,
fails when enumeration fails, and otherwise walks the entries. -/
def process_directory (cfg : FileProcessor) (hl : String → Option String)
    (p : List String) (node : FSNode) (depth : Option Nat) : PResult :=
  match node with
  | .file _ _ => ([], Except.ok ())
  | .dir readable entries =>
    if readable then processEntries cfg hl p entries depth
    else ([], Except.error (PErr.directoryRead p))

/-- The entry loop of process_directory: skip excluded base names, dispatch
files passing the extension filter to proces_file, and recurse into
subdirectories under the depth rule; errors of a step abort the loop. -/
def processEntries (cfg : FileProcessor) (hl : String → Option String)
    (p : List String) (entries : FSList) (depth : Option Nat) : PResult :=
  match entries with
  | .nil => ([], Except.ok ())
  | .cons name child rest =>
    if cfg.should_skip (p ++ [name]) then processEntries cfg hl p rest depth
    else
      pseq
        (match child with
         | .file rd cts =>
           if cfg.file_ext.all (fun ext => extD name == ext) then
             proces_file cfg hl (p ++ [name]) (.file rd cts)
           else ([], Except.ok ())
         | .dir rd es =>
           match depth with
           | none => process_directory cfg hl (p ++ [name]) (.dir rd es) none
           | some 0 => ([], Except.ok ())
           | some (d + 1) => process_directory cfg hl (p ++ [name]) (.dir rd es) (some d))
        (fun _ => processEntries cfg hl p rest depth)
end

mutual
/-- FileProcessor::generate_json: a node whose enumeration fails (a file, or
an unreadable directory) becomes the empty structure; otherwise the entries
are folded into the files array and the subdirectory map. -/
def generate_json (cfg : FileProcessor) (p : List String) (node : FSNode) : JNode :=
  match node with
  | .file _ _ => JNode.mk [] JDirs.nil
  | .dir readable entries =>
    if readable then genEntries cfg p entries else JNode.mk [] JDirs.nil

/-- The entry loop of generate_json.  Note the exclusion test is applied to
p, the directory being enumerated, not to the child name — exactly as the
Rust code calls self.should_skip(path) inside the loop. -/
def genEntries (cfg : FileProcessor) (p : List String) (entries : FSList) : JNode :=
  match entries with
  | .nil => JNode.mk [] JDirs.nil
  | .cons name child rest =>
    let acc := genEntries cfg p rest
    if cfg.should_skip p then acc
    else
      match child with
      | .file _ _ => JNode.mk (name :: acc.files) acc.dirs
      | .dir rd es =>
        JNode.mk acc.files
          (JDirs.cons name (generate_json cfg (p ++ [name]) (.dir rd es)) acc.dirs)
end

/-- FileProcessor::run: missing path is PathNotFound with no output; JSON
mode serializes the generated tree for any existing root; otherwise a
directory root starts the walk with the configured depth and a file root is
dispatched to proces_file directly. -/
def run (cfg : FileProcessor) (hl : String → Option String)
    (p : List String) (root : Option FSNode) : PResult :=
  match root with
  | none => ([], Except.error (PErr.pathNotFound p))
  | some node =>
    if cfg.json then ([OutEvent.jsonOut (generate_json cfg p node)], Except.ok ())
    else
      match node with
      | .dir rd es => process_directory cfg hl p (.dir rd es) cfg.depth
      | .file rd cts => proces_file cfg hl p (.file rd cts)

/-- True exactly on the PathNotFound error. -/
def isPNF : Except PErr Unit → Bool
  | Except.error (PErr.pathNotFound _) => true
  | _ => false

/-- The base names of the direct file children of an entry list. -/
def FSList.fileNames : FSList → List String
  | .nil => []
  | .cons name (.file _ _) rest => name :: FSList.fileNames rest
  | .cons _ (.dir _ _) rest => FSList.fileNames rest

/-- The base names of the direct file children of a node. -/
def FSNode.fileNames : FSNode → List String
  | .file _ _ => []
  | .dir _ es => es.fileNames

mutual
/-- Two nodes have the same shape when they differ at most in the
readability and contents of files: same node kinds, same names, same
directory readability, recursively. -/
def sameShape : FSNode → FSNode → Bool
  | .file _ _, .file _ _ => true
  | .dir r1 e1, .dir r2 e2 => r1 == r2 && sameShapeL e1 e2
  | _, _ => false

/-- Shape equality of entry lists. -/
def sameShapeL : FSList → FSList → Bool
  | .nil, .nil => true
  | .cons n1 c1 r1, .cons n2 c2 r2 => n1 == n2 && sameShape c1 c2 && sameShapeL r1 r2
  | _, _ => false
end

/-- A highlight oracle that fails on every line. -/
def hl0 : String → Option String := fun _ => none

/-- A highlight oracle that passes every line through unchanged. -/
def hlId : String → Option String := fun s => some s

/-- A configuration with the given list and json flags, highlighting off,
no extension filter, unlimited depth, and the fixed exclusion set. -/
def mkProc (lst js : Bool) : FileProcessor :=
  ⟨true, none, none, lst, js, get_to_exclude⟩

/-- Sequencing after a silent successful step is the continuation itself. -/
theorem pseq_ok (k : Unit → PResult) : pseq ([], Except.ok ()) k = k () := by
  simp [pseq]

/-- Sequencing stops at an error, keeping the output produced so far. -/
theorem pseq_err (out : List OutEvent) (e : PErr) (k : Unit → PResult) :
    pseq (out, Except.error e) k = (out, Except.error e) := rfl

/-- The last element of a path extended by one component is that component. -/
theorem getLast?_app_single (p : List String) (name : String) :
    (p ++ [name]).getLast? = some name := by
  rw [List.getLast?_append_cons]
  rfl

/-- Unfolding lemma: the entry loop on an empty enumeration. -/
theorem processEntries_nil (cfg : FileProcessor) (hl : String → Option String)
    (p : List String) (d : Option Nat) :
    processEntries cfg hl p FSList.nil d = ([], Except.ok ()) := rfl

/-- Unfolding lemma: the entry loop on a file entry. -/
theorem processEntries_cons_file (cfg : FileProcessor) (hl : String → Option String)
    (p : List String) (name : String) (rd : Bool) (cts : List String)
    (rest : FSList) (d : Option Nat) :
    processEntries cfg hl p (.cons name (.file rd cts) rest) d =
      if cfg.should_skip (p ++ [name]) then processEntries cfg hl p rest d
      else
        pseq
          (if cfg.file_ext.all (fun ext => extD name == ext) then
            proces_file cfg hl (p ++ [name]) (.file rd cts)
          else ([], Except.ok ()))
          (fun _ => processEntries cfg hl p rest d) := rfl

/-- Unfolding lemma: the entry loop on a directory entry. -/
theorem processEntries_cons_dir (cfg : FileProcessor) (hl : String → Option String)
    (p : List String) (name : String) (rd : Bool) (es : FSList)
    (rest : FSList) (d : Option Nat) :
    processEntries cfg hl p (.cons name (.dir rd es) rest) d =
      if cfg.should_skip (p ++ [name]) then processEntries cfg hl p rest d
      else
        pseq
          (match d with
           | none => process_directory cfg hl (p ++ [name]) (.dir rd es) none
           | some 0 => ([], Except.ok ())
           | some (k + 1) => process_directory cfg hl (p ++ [name]) (.dir rd es) (some k))
          (fun _ => processEntries cfg hl p rest d) := rfl

/-- Unfolding lemma: the walk on a readable directory node. -/
theorem process_directory_dir (cfg : FileProcessor) (hl : String → Option String)
    (p : List String) (es : FSList) (d : Option Nat) :
    process_directory cfg hl p (.dir true es) d = processEntries cfg hl p es d := rfl

/-- Unfolding lemma: run on a directory root. -/
theorem run_some_dir (cfg : FileProcessor) (hl : String → Option String)
    (p : List String) (rd : Bool) (es : FSList) :
    run cfg hl p (some (.dir rd es)) =
      if cfg.json then
        ([OutEvent.jsonOut (generate_json cfg p (.dir rd es))], Except.ok ())
      else process_directory cfg hl p (.dir rd es) cfg.depth := rfl

/-- Unfolding lemma: run on a file root. -/
theorem run_some_file (cfg : FileProcessor) (hl : String → Option String)
    (p : List String) (rd : Bool) (cts : List String) :
    run cfg hl p (some (.file rd cts)) =
      if cfg.json then
        ([OutEvent.jsonOut (generate_json cfg p (.file rd cts))], Except.ok ())
      else proces_file cfg hl p (.file rd cts) := rfl

/-- Sequencing never introduces a PathNotFound error. -/
theorem isPNF_pseq (a : PResult) (k : Unit → PResult) (h1 : isPNF a.2 = false)
    (h2 : isPNF (k ()).2 = false) : isPNF (pseq a k).2 = false := by
  rcases a with ⟨out, r⟩
  cases r with
  | ok u => simpa [pseq] using h2
  | error e => simpa [pseq] using h1

/-- The highlighting loop never fails with PathNotFound. -/
theorem hlRender_no_pnf (hl : String → Option String) (p : List String) :
    ∀ cts : List String, isPNF (hlRender hl p cts).2 = false
  | [] => rfl
  | l :: ls => by
    cases hhl : hl l with
    | none => simp [hlRender, hhl, isPNF]
    | some s =>
      have ih := hlRender_no_pnf hl p ls
      rcases hr : hlRender hl p ls with ⟨o, r⟩
      rw [hr] at ih
      simpa [hlRender, hhl, hr] using ih

/-- Printing a file never fails with PathNotFound. -/
theorem print_file_contents_no_pnf (cfg : FileProcessor) (hl : String → Option String)
    (p : List String) (rd : Bool) (cts : List String) :
    isPNF (print_file_contents cfg hl p rd cts).2 = false := by
  have hhr := hlRender_no_pnf hl p cts
  rcases hr : hlRender hl p cts with ⟨o, r⟩
  rw [hr] at hhr
  cases rd with
  | false => simp [print_file_contents, isPNF]
  | true =>
    cases hnc : cfg.no_color with
    | true => simp [print_file_contents, hnc, isPNF]
    | false =>
      cases r with
      | ok u => simp [print_file_contents, hnc, hr, isPNF]
      | error e => simpa [print_file_contents, hnc, hr, isPNF] using hhr

/-- Dispatching a file never fails with PathNotFound. -/
theorem proces_file_no_pnf (cfg : FileProcessor) (hl : String → Option String)
    (p : List String) (node : FSNode) : isPNF (proces_file cfg hl p node).2 = false := by
  cases hlist : cfg.list with
  | true => simp [proces_file, hlist, isPNF]
  | false =>
    cases node with
    | file rd cts =>
      simpa [proces_file, hlist] using print_file_contents_no_pnf cfg hl p rd cts
    | dir rd es => simp [proces_file, hlist, isPNF]

mutual
/-- The directory walk never fails with PathNotFound. -/
theorem pd_no_pnf (cfg : FileProcessor) (hl : String → Option String) (p : List String) :
    ∀ (node : FSNode) (d : Option Nat), isPNF (process_directory cfg hl p node d).2 = false
  | .file _ _, _ => rfl
  | .dir rd es, d => by
    cases rd with
    | false => rfl
    | true => simpa [process_directory] using pe_no_pnf cfg hl p es d
termination_by node _ => sizeOf node

/-- The entry loop never fails with PathNotFound. -/
theorem pe_no_pnf (cfg : FileProcessor) (hl : String → Option String) (p : List String) :
    ∀ (es : FSList) (d : Option Nat), isPNF (processEntries cfg hl p es d).2 = false
  | .nil, _ => rfl
  | .cons name child rest, d => by
    have ihr := pe_no_pnf cfg hl p rest d
    cases child with
    | file rd cts =>
      rw [processEntries_cons_file]
      cases hskip : cfg.should_skip (p ++ [name]) with
      | true => simpa [hskip] using ihr
      | false =>
        simp only [hskip, Bool.false_eq_true, if_false]
        apply isPNF_pseq
        · cases hext : cfg.file_ext.all (fun ext => extD name == ext) with
          | true =>
            simpa [hext] using proces_file_no_pnf cfg hl (p ++ [name]) (.file rd cts)
          | false => simp [hext, isPNF]
        · exact ihr
    | dir rd es2 =>
      rw [processEntries_cons_dir]
      cases hskip : cfg.should_skip (p ++ [name]) with
      | true => simpa [hskip] using ihr
      | false =>
        simp only [hskip, Bool.false_eq_true, if_false]
        apply isPNF_pseq
        · cases d with
          | none => exact pd_no_pnf cfg hl (p ++ [name]) (.dir rd es2) none
          | some k =>
            cases k with
            | zero => rfl
            | succ m => exact pd_no_pnf cfg hl (p ++ [name]) (.dir rd es2) (some m)
        · exact ihr
termination_by es _ => sizeOf es
end

/-- In list mode, dispatching any node prints exactly the announcement. -/
theorem proces_file_list (cfg : FileProcessor) (hl : String → Option String)
    (p : List String) (node : FSNode) (h : cfg.list = true) :
    proces_file cfg hl p node = ([OutEvent.announce p], Except.ok ()) := by
  simp [proces_file, h]

mutual
/-- In list mode the walk depends only on the shape of the tree, not on file
contents, file readability, or the highlight oracle. -/
theorem pd_shape (cfg : FileProcessor) (hl1 hl2 : String → Option String)
    (hlist : cfg.list = true) (p : List String) (d : Option Nat) :
    ∀ (n1 n2 : FSNode), sameShape n1 n2 = true →
      process_directory cfg hl1 p n1 d = process_directory cfg hl2 p n2 d
  | .file _ _, .file _ _, _ => rfl
  | .file _ _, .dir _ _, h => by simp [sameShape] at h
  | .dir _ _, .file _ _, h => by simp [sameShape] at h
  | .dir r1 e1, .dir r2 e2, h => by
    have h2 : r1 = r2 ∧ sameShapeL e1 e2 = true := by
      simpa [sameShape, Bool.and_eq_true] using h
    obtain ⟨hr, he⟩ := h2
    subst hr
    cases r1 with
    | false => rfl
    | true => simpa [process_directory] using pe_shape cfg hl1 hl2 hlist p d e1 e2 he
termination_by n1 _ _ => sizeOf n1

/-- In list mode the entry loop depends only on the shape of the entries. -/
theorem pe_shape (cfg : FileProcessor) (hl1 hl2 : String → Option String)
    (hlist : cfg.list = true) (p : List String) (d : Option Nat) :
    ∀ (e1 e2 : FSList), sameShapeL e1 e2 = true →
      processEntries cfg hl1 p e1 d = processEntries cfg hl2 p e2 d
  | .nil, .nil, _ => rfl
  | .nil, .cons _ _ _, h => by simp [sameShapeL] at h
  | .cons _ _ _, .nil, h => by simp [sameShapeL] at h
  | .cons n1 c1 r1, .cons n2 c2 r2, h => by
    have h2 : (n1 = n2 ∧ sameShape c1 c2 = true) ∧ sameShapeL r1 r2 = true := by
      simpa [sameShapeL, Bool.and_eq_true, and_assoc] using h
    obtain ⟨⟨hn, hc⟩, hr⟩ := h2
    subst hn
    have ihr := pe_shape cfg hl1 hl2 hlist p d r1 r2 hr
    cases c1 with
    | file rda ctsa =>
      cases c2 with
      | dir _ _ => simp [sameShape] at hc
      | file rdb ctsb =>
        rw [processEntries_cons_file, processEntries_cons_file, ihr]
        cases hskip : cfg.should_skip (p ++ [n1]) with
        | true => simp [hskip]
        | false =>
          simp only [hskip, Bool.false_eq_true, if_false]
          congr 1
          cases hext : cfg.file_ext.all (fun ext => extD n1 == ext) with
          | true =>
            simp [proces_file_list cfg hl1 (p ++ [n1]) (.file rda ctsa) hlist,
              proces_file_list cfg hl2 (p ++ [n1]) (.file rdb ctsb) hlist]
          | false => simp
    | dir rda esa =>
      cases c2 with
      | file _ _ => simp [sameShape] at hc
      | dir rdb esb =>
        rw [processEntries_cons_dir, processEntries_cons_dir, ihr]
        cases hskip : cfg.should_skip (p ++ [n1]) with
        | true => simp [hskip]
        | false =>
          simp only [hskip, Bool.false_eq_true, if_false]
          congr 1
          cases d with
          | none =>
            exact pd_shape cfg hl1 hl2 hlist (p ++ [n1]) none
              (.dir rda esa) (.dir rdb esb) hc
          | some k =>
            cases k with
            | zero => rfl
            | succ m =>
              exact pd_shape cfg hl1 hl2 hlist (p ++ [n1]) (some m)
                (.dir rda esa) (.dir rdb esb) hc
termination_by e1 _ _ => sizeOf e1
end

/-- The exclusion test depends on the configuration only through the
exclusion set. -/
theorem should_skip_congr (cfg cfg2 : FileProcessor)
    (hex : cfg.excluded_files = cfg2.excluded_files) (q : List String) :
    cfg.should_skip q = cfg2.should_skip q := by
  unfold FileProcessor.should_skip
  rw [hex]

mutual
/-- generate_json depends on the configuration only through the exclusion
set; in particular it never consults the depth option. -/
theorem gj_excl (cfg cfg2 : FileProcessor)
    (hex : cfg.excluded_files = cfg2.excluded_files) :
    ∀ (p : List String) (n : FSNode), generate_json cfg p n = generate_json cfg2 p n
  | _, .file _ _ => rfl
  | p, .dir rd es => by
    cases rd with
    | false => rfl
    | true => simpa [generate_json] using ge_excl cfg cfg2 hex p es

/-- The generate_json entry loop depends only on the exclusion set. -/
theorem ge_excl (cfg cfg2 : FileProcessor)
    (hex : cfg.excluded_files = cfg2.excluded_files) :
    ∀ (p : List String) (es : FSList), genEntries cfg p es = genEntries cfg2 p es
  | _, .nil => rfl
  | p, .cons name child rest => by
    have ih := ge_excl cfg cfg2 hex p rest
    have hss := should_skip_congr cfg cfg2 hex p
    cases child with
    | file rd cts => simp [genEntries, ih, hss]
    | dir rd es2 =>
      have ihc := gj_excl cfg cfg2 hex (p ++ [name]) (.dir rd es2)
      simp [genEntries, ih, hss, ihc]
end

/-- When the enumerated directory itself has a non-excluded name, the files
array built by the generate_json loop is exactly the list of direct file
children in enumeration order. -/
theorem genEntries_files (cfg : FileProcessor) (p : List String)
    (h : cfg.should_skip p = false) :
    ∀ es : FSList, (genEntries cfg p es).files = es.fileNames
  | .nil => rfl
  | .cons name child rest => by
    have ih := genEntries_files cfg p h rest
    rcases hacc : genEntries cfg p rest with ⟨fs, ds⟩
    rw [hacc] at ih
    simp only [JNode.files] at ih
    cases child with
    | file rd cts => simp [genEntries, h, hacc, FSList.fileNames, JNode.files, ih]
    | dir rd es2 => simp [genEntries, h, hacc, FSList.fileNames, JNode.files, ih]

/-- C1: for a root path that does not exist, run returns the PathNotFound
error and produces no output; for an existing root, run never returns
PathNotFound, whatever else happens. -/
theorem c1_pathNotFound_iff_missing :
    (∀ (cfg : FileProcessor) (hl : String → Option String) (p : List String),
      run cfg hl p none = ([], Except.error (PErr.pathNotFound p))) ∧
    (∀ (cfg : FileProcessor) (hl : String → Option String) (p : List String)
      (node : FSNode), isPNF (run cfg hl p (some node)).2 = false) := by
  constructor
  · intro cfg hl p
    rfl
  · intro cfg hl p node
    cases node with
    | dir rd es =>
      rw [run_some_dir]
      cases hj : cfg.json with
      | true => simp [isPNF]
      | false => simpa using pd_no_pnf cfg hl p (.dir rd es) cfg.depth
    | file rd cts =>
      rw [run_some_file]
      cases hj : cfg.json with
      | true => simp [isPNF]
      | false => simpa using proces_file_no_pnf cfg hl p (.file rd cts)

/-- C2 counterexample: with an unreadable file first in the directory, the
run stops at that file with an error; the second file of the same directory
is never processed, so the failure is not confined to the per-file boundary. -/
theorem c2_counterexample :
    run (mkProc false false) hl0 ["r"]
      (some (.dir true (.cons "a.txt" (.file false [])
        (.cons "b.txt" (.file true ["hi"]) .nil)))) =
    ([OutEvent.header ["r", "a.txt"]], Except.error (PErr.fileOpen ["r", "a.txt"])) := rfl

/-- C2 (amended): a rendering failure on one file is not recovered: the
error propagates out of the entry loop, so the remaining entries of the
directory are not processed and the traversal aborts with that error. -/
theorem c2_file_error_aborts_traversal :
    ∀ (cfg : FileProcessor) (hl : String → Option String) (p : List String)
      (name : String) (rd : Bool) (cts : List String) (rest : FSList)
      (d : Option Nat) (out : List OutEvent) (e : PErr),
      cfg.should_skip (p ++ [name]) = false →
      cfg.file_ext.all (fun ext => extD name == ext) = true →
      proces_file cfg hl (p ++ [name]) (.file rd cts) = (out, Except.error e) →
      processEntries cfg hl p (.cons name (.file rd cts) rest) d = (out, Except.error e) := by
  intro cfg hl p name rd cts rest d out e hskip hext hpf
  rw [processEntries_cons_file]
  simp [hskip, hext, hpf, pseq]

/-- C2 witness: the amended statement at a concrete directory. -/
theorem c2_witness :
    processEntries (mkProc false false) hl0 ["r"]
      (.cons "a.txt" (.file false []) (.cons "b.txt" (.file true ["hi"]) .nil)) none =
    ([OutEvent.header ["r", "a.txt"]], Except.error (PErr.fileOpen ["r", "a.txt"])) :=
  c2_file_error_aborts_traversal (mkProc false false) hl0 ["r"] "a.txt" false []
    (.cons "b.txt" (.file true ["hi"]) .nil) none
    [OutEvent.header ["r", "a.txt"]] (PErr.fileOpen ["r", "a.txt"]) rfl rfl rfl

/-- C3: a directory entry is recursed with depth unchanged when depth is
unlimited, with depth reduced by one when positive, and not descended at all
when depth is zero, while a file entry of the same directory is still
processed at depth zero. -/
theorem c3_depth_recursion :
    ∀ (cfg : FileProcessor) (hl : String → Option String) (p : List String)
      (name : String) (rest : FSList),
      cfg.should_skip (p ++ [name]) = false →
      (∀ (rd : Bool) (es : FSList),
        processEntries cfg hl p (.cons name (.dir rd es) rest) none =
          pseq (process_directory cfg hl (p ++ [name]) (.dir rd es) none)
            (fun _ => processEntries cfg hl p rest none)) ∧
      (∀ (rd : Bool) (es : FSList) (d : Nat),
        processEntries cfg hl p (.cons name (.dir rd es) rest) (some (d + 1)) =
          pseq (process_directory cfg hl (p ++ [name]) (.dir rd es) (some d))
            (fun _ => processEntries cfg hl p rest (some (d + 1)))) ∧
      (∀ (rd : Bool) (es : FSList),
        processEntries cfg hl p (.cons name (.dir rd es) rest) (some 0) =
          processEntries cfg hl p rest (some 0)) ∧
      (∀ (rd : Bool) (cts : List String),
        cfg.file_ext.all (fun ext => extD name == ext) = true →
        processEntries cfg hl p (.cons name (.file rd cts) rest) (some 0) =
          pseq (proces_file cfg hl (p ++ [name]) (.file rd cts))
            (fun _ => processEntries cfg hl p rest (some 0))) := by
  intro cfg hl p name rest hskip
  refine ⟨?_, ?_, ?_, ?_⟩
  · intro rd es
    rw [processEntries_cons_dir]
    simp [hskip]
  · intro rd es d
    rw [processEntries_cons_dir]
    simp [hskip]
  · intro rd es
    rw [processEntries_cons_dir]
    simp [hskip, pseq_ok]
  · intro rd cts hext
    rw [processEntries_cons_file]
    simp [hskip, hext]

/-- C3 witness: at depth zero a concrete subdirectory is pruned. -/
theorem c3_witness :
    processEntries (mkProc true false) hlId ["r"]
      (.cons "sub" (.dir true .nil) .nil) (some 0) =
    processEntries (mkProc true false) hlId ["r"] FSList.nil (some 0) :=
  (c3_depth_recursion (mkProc true false) hlId ["r"] "sub" .nil rfl).2.2.1 true .nil

/-- C4: should_skip depends only on the base name of the path, and an entry
whose base name is in the fixed exclusion set is skipped entirely by the
entry loop, at any depth and with any flag combination. -/
theorem c4_exclusion_basename_skip :
    (∀ (cfg : FileProcessor) (p q : List String), p.getLast? = q.getLast? →
      cfg.should_skip p = cfg.should_skip q) ∧
    (∀ (args : Args) (hl : String → Option String) (p : List String)
      (name : String) (child : FSNode) (rest : FSList) (d : Option Nat),
      get_to_exclude.contains name = true →
      processEntries (FileProcessor.new args) hl p (.cons name child rest) d =
        processEntries (FileProcessor.new args) hl p rest d) := by
  constructor
  · intro cfg p q hpq
    unfold FileProcessor.should_skip
    rw [hpq]
  · intro args hl p name child rest d hmem
    have hskip : (FileProcessor.new args).should_skip (p ++ [name]) = true := by
      unfold FileProcessor.should_skip
      rw [getLast?_app_single]
      exact hmem
    cases child with
    | file rd cts =>
      rw [processEntries_cons_file]
      simp [hskip]
    | dir rd es =>
      rw [processEntries_cons_dir]
      simp [hskip]

/-- C4 witness: a .git directory entry is skipped entirely. -/
theorem c4_witness :
    processEntries (FileProcessor.new ⟨".", false, none, none, false, 0, false⟩) hlId ["r"]
      (.cons ".git" (.dir true (.cons "HEAD" (.file true ["x"]) .nil)) .nil) none =
    processEntries (FileProcessor.new ⟨".", false, none, none, false, 0, false⟩) hlId ["r"]
      FSList.nil none :=
  c4_exclusion_basename_skip.2 ⟨".", false, none, none, false, 0, false⟩ hlId ["r"] ".git"
    (.dir true (.cons "HEAD" (.file true ["x"]) .nil)) .nil none rfl

/-- C5: in JSON mode the exclusion check is applied to the enclosing parent
directory name, not to each child entry's own name: a subdirectory named
.git below a non-excluded parent appears as a key of the JSON structure,
while the non-JSON traversal of the same tree skips it entirely, so the two
traversal modes disagree on which entries are skipped. -/
theorem c5_json_exclusion_checks_parent :
    generate_json (mkProc false true) ["proj"]
      (.dir true (.cons ".git" (.dir true (.cons "HEAD" (.file true []) .nil)) .nil)) =
      JNode.mk [] (JDirs.cons ".git" (JNode.mk [] JDirs.nil) JDirs.nil) ∧
    run (mkProc true false) hl0 ["proj"]
      (some (.dir true (.cons ".git" (.dir true (.cons "HEAD" (.file true []) .nil)) .nil))) =
      ([], Except.ok ()) := ⟨rfl, rfl⟩

/-- C6: during directory enumeration with filter E, a discovered file is
processed exactly when its extension equals E; a file without extension is
excluded by every non-empty E; and a file root is dispatched directly,
without the extension filter being consulted. -/
theorem c6_extension_filter :
    (∀ (cfg : FileProcessor) (hl : String → Option String) (p : List String)
      (name : String) (rd : Bool) (cts : List String) (rest : FSList)
      (d : Option Nat) (E ex : String),
      cfg.file_ext = some E → pathExtension name = some ex →
      cfg.should_skip (p ++ [name]) = false →
      processEntries cfg hl p (.cons name (.file rd cts) rest) d =
        if ex = E then
          pseq (proces_file cfg hl (p ++ [name]) (.file rd cts))
            (fun _ => processEntries cfg hl p rest d)
        else processEntries cfg hl p rest d) ∧
    (∀ (cfg : FileProcessor) (hl : String → Option String) (p : List String)
      (name : String) (rd : Bool) (cts : List String) (rest : FSList)
      (d : Option Nat) (E : String),
      cfg.file_ext = some E → pathExtension name = none → E ≠ "" →
      cfg.should_skip (p ++ [name]) = false →
      processEntries cfg hl p (.cons name (.file rd cts) rest) d =
        processEntries cfg hl p rest d) ∧
    (∀ (cfg : FileProcessor) (hl : String → Option String) (p : List String)
      (rd : Bool) (cts : List String), cfg.json = false →
      run cfg hl p (some (.file rd cts)) = proces_file cfg hl p (.file rd cts)) := by
  refine ⟨?_, ?_, ?_⟩
  · intro cfg hl p name rd cts rest d E ex hE hx hskip
    have hname : extD name = ex := by simp [extD, hx]
    have hcond : (cfg.file_ext.all fun ext => extD name == ext) = (ex == E) := by
      rw [hE]
      show (extD name == E) = (ex == E)
      rw [hname]
    rw [processEntries_cons_file]
    by_cases hex : ex = E
    · simp [hskip, hcond, hex]
    · simp [hskip, hcond, hex, pseq_ok]
  · intro cfg hl p name rd cts rest d E hE hx hEne hskip
    have hname : extD name = "" := by simp [extD, hx]
    have hcond : (cfg.file_ext.all fun ext => extD name == ext) = false := by
      rw [hE]
      show (extD name == E) = false
      rw [hname, beq_eq_false_iff_ne]
      exact fun hc => hEne hc.symm
    rw [processEntries_cons_file]
    simp [hskip, hcond, pseq_ok]
  · intro cfg hl p rd cts hj
    rw [run_some_file]
    simp [hj]

/-- C6 witness: an rs file passes the rs filter at a concrete directory. -/
theorem c6_witness :
    processEntries ⟨true, none, some "rs", true, false, get_to_exclude⟩ hlId ["r"]
      (.cons "a.rs" (.file true []) .nil) none =
      (if "rs" = "rs" then
        pseq (proces_file ⟨true, none, some "rs", true, false, get_to_exclude⟩ hlId
            ["r", "a.rs"] (.file true []))
          (fun _ => processEntries ⟨true, none, some "rs", true, false, get_to_exclude⟩
            hlId ["r"] FSList.nil none)
      else processEntries ⟨true, none, some "rs", true, false, get_to_exclude⟩
        hlId ["r"] FSList.nil none) :=
  c6_extension_filter.1 ⟨true, none, some "rs", true, false, get_to_exclude⟩ hlId ["r"]
    "a.rs" true [] .nil none "rs" "rs" rfl rfl rfl

/-- C7 counterexample: in JSON mode an unreadable subdirectory does not
abort the run; it is serialized as an empty subtree and the run succeeds, so
the claimed abort does not happen in every output mode. -/
theorem c7_counterexample :
    run (mkProc false true) hl0 ["r"]
      (some (.dir true (.cons "sub" (.dir false .nil) .nil))) =
    ([OutEvent.jsonOut (JNode.mk [] (JDirs.cons "sub" (JNode.mk [] JDirs.nil) JDirs.nil))],
      Except.ok ()) := rfl

/-- C7 (amended): in the non-JSON walk a failed enumeration yields the
DirectoryRead error, which propagates out of the entry loop when the
subdirectory is descended; in JSON mode a failed enumeration is silently
treated as an empty directory and the run always succeeds. -/
theorem c7_directory_read_propagation :
    (∀ (cfg : FileProcessor) (hl : String → Option String) (p : List String)
      (es : FSList) (d : Option Nat),
      process_directory cfg hl p (.dir false es) d =
        ([], Except.error (PErr.directoryRead p))) ∧
    (∀ (cfg : FileProcessor) (hl : String → Option String) (p : List String)
      (name : String) (es rest : FSList) (d : Option Nat),
      cfg.should_skip (p ++ [name]) = false →
      (d = none ∨ ∃ k, d = some (k + 1)) →
      processEntries cfg hl p (.cons name (.dir false es) rest) d =
        ([], Except.error (PErr.directoryRead (p ++ [name])))) ∧
    (∀ (cfg : FileProcessor) (p : List String) (es : FSList),
      generate_json cfg p (.dir false es) = JNode.mk [] JDirs.nil) ∧
    (∀ (cfg : FileProcessor) (hl : String → Option String) (p : List String)
      (node : FSNode), cfg.json = true → (run cfg hl p (some node)).2 = Except.ok ()) := by
  refine ⟨?_, ?_, ?_, ?_⟩
  · intro cfg hl p es d
    rfl
  · intro cfg hl p name es rest d hskip hd
    have hstep : ∀ dd, process_directory cfg hl (p ++ [name]) (.dir false es) dd =
        ([], Except.error (PErr.directoryRead (p ++ [name]))) := fun dd => rfl
    rw [processEntries_cons_dir]
    rcases hd with hd | ⟨k, hd⟩ <;> subst hd <;> simp [hskip, hstep, pseq]
  · intro cfg p es
    rfl
  · intro cfg hl p node hj
    cases node with
    | dir rd es =>
      rw [run_some_dir]
      simp [hj]
    | file rd cts =>
      rw [run_some_file]
      simp [hj]

/-- C7 witness: a concrete unreadable subdirectory aborts a non-JSON walk. -/
theorem c7_witness :
    processEntries (mkProc false false) hl0 ["r"]
      (.cons "sub" (.dir false .nil) .nil) none =
    ([], Except.error (PErr.directoryRead ["r", "sub"])) :=
  c7_directory_read_propagation.2.1 (mkProc false false) hl0 ["r"] "sub" .nil .nil none
    rfl (Or.inl rfl)

/-- C8 counterexample: a directory root whose own name is in the exclusion
set is built with an empty files array even though it has a direct file
child, so not every node's files key lists the direct file children. -/
theorem c8_counterexample :
    generate_json (mkProc false true) [".git"]
      (.dir true (.cons "a" (.file true []) .nil)) = JNode.mk [] JDirs.nil ∧
    FSNode.fileNames (.dir true (.cons "a" (.file true []) .nil)) = ["a"] := ⟨rfl, rfl⟩

/-- C8 (amended): in JSON mode run serializes the generated tree for any
existing root; a file root produces the empty structure, every node carries
a files key by construction, and for a readable directory whose own path
base name is not excluded the files key is exactly the list of direct file
children in enumeration order. -/
theorem c8_json_structure :
    (∀ (cfg : FileProcessor) (hl : String → Option String) (p : List String)
      (node : FSNode), cfg.json = true →
      run cfg hl p (some node) =
        ([OutEvent.jsonOut (generate_json cfg p node)], Except.ok ())) ∧
    (∀ (cfg : FileProcessor) (p : List String) (rd : Bool) (cts : List String),
      generate_json cfg p (.file rd cts) = JNode.mk [] JDirs.nil) ∧
    (∀ (cfg : FileProcessor) (p : List String) (es : FSList),
      cfg.should_skip p = false →
      (generate_json cfg p (.dir true es)).files = es.fileNames) := by
  refine ⟨?_, ?_, ?_⟩
  · intro cfg hl p node hj
    cases node with
    | dir rd es =>
      rw [run_some_dir]
      simp [hj]
    | file rd cts =>
      rw [run_some_file]
      simp [hj]
  · intro cfg p rd cts
    rfl
  · intro cfg p es h
    exact genEntries_files cfg p h es

/-- C8 witness: the files key at a concrete readable non-excluded root. -/
theorem c8_witness :
    (generate_json (mkProc false true) ["r"]
      (.dir true (.cons "a" (.file true []) .nil))).files =
    FSList.fileNames (.cons "a" (.file true []) .nil) :=
  c8_json_structure.2.2 (mkProc false true) ["r"] (.cons "a" (.file true []) .nil) rfl

/-- C9: in list mode only the announcement line is printed for a qualifying
file and the contents are never consulted: two runs over trees of the same
shape, differing only in file contents and file readability, and even using
different highlight oracles, produce identical output and identical status. -/
theorem c9_list_mode_content_independent :
    (∀ (cfg : FileProcessor) (hl1 hl2 : String → Option String) (p : List String)
      (n1 n2 : FSNode), cfg.list = true → cfg.json = false →
      sameShape n1 n2 = true →
      run cfg hl1 p (some n1) = run cfg hl2 p (some n2)) ∧
    (∀ (cfg : FileProcessor) (hl : String → Option String) (p : List String)
      (node : FSNode), cfg.list = true →
      proces_file cfg hl p node = ([OutEvent.announce p], Except.ok ())) := by
  constructor
  · intro cfg hl1 hl2 p n1 n2 hlist hj hsh
    cases n1 with
    | file rd cts =>
      cases n2 with
      | dir _ _ => simp [sameShape] at hsh
      | file rd2 cts2 =>
        rw [run_some_file, run_some_file]
        simp [hj, proces_file_list cfg hl1 p (.file rd cts) hlist,
          proces_file_list cfg hl2 p (.file rd2 cts2) hlist]
    | dir rd es =>
      cases n2 with
      | file _ _ => simp [sameShape] at hsh
      | dir rd2 es2 =>
        rw [run_some_dir, run_some_dir]
        simp only [hj, Bool.false_eq_true, if_false]
        exact pd_shape cfg hl1 hl2 hlist p cfg.depth (.dir rd es) (.dir rd2 es2) hsh
  · intro cfg hl p node hlist
    exact proces_file_list cfg hl p node hlist

/-- C9 witness: two concrete trees differing in contents and readability
give identical list-mode runs under different highlight oracles. -/
theorem c9_witness :
    run (mkProc true false) hl0 ["r"]
      (some (.dir true (.cons "f" (.file true ["x"]) .nil))) =
    run (mkProc true false) hlId ["r"]
      (some (.dir true (.cons "f" (.file false ["y", "z"]) .nil))) :=
  c9_list_mode_content_independent.1 (mkProc true false) hl0 hlId ["r"]
    (.dir true (.cons "f" (.file true ["x"]) .nil))
    (.dir true (.cons "f" (.file false ["y", "z"]) .nil)) rfl rfl rfl

/-- C10: in JSON mode the configured maximum recursion depth is ignored:
the generated structure and the whole run are unchanged under any change of
the depth option, all other configuration fields held fixed. -/
theorem c10_json_ignores_depth :
    ∀ (nc : Bool) (d1 d2 : Option Nat) (fe : Option String) (l : Bool)
      (ex : List String) (hl : String → Option String) (p : List String) (n : FSNode),
      generate_json ⟨nc, d1, fe, l, true, ex⟩ p n =
        generate_json ⟨nc, d2, fe, l, true, ex⟩ p n ∧
      run ⟨nc, d1, fe, l, true, ex⟩ hl p (some n) =
        run ⟨nc, d2, fe, l, true, ex⟩ hl p (some n) := by
  intro nc d1 d2 fe l ex hl p n
  have hg := gj_excl ⟨nc, d1, fe, l, true, ex⟩ ⟨nc, d2, fe, l, true, ex⟩ rfl p n
  refine ⟨hg, ?_⟩
  cases n with
  | dir rd es =>
    rw [run_some_dir, run_some_dir]
    simp [hg]
  | file rd cts =>
    rw [run_some_file, run_some_file]
    simp [hg]

end Rcat
